import Mathlib

/-!
# Verification of the scotustician ingestion / transformation pipeline

Shallow embedding, in Lean 4, of the parts of the scotustician repository
that the specification's testable properties are about:

* Python string primitives used by the code (`str.split`, `str.replace`,
  `str.strip`, whitespace word splitting), modelled over `List Char` /
  `String` so every definition is executable and provable.
* `src/transformers/helpers.py`: `extract_metadata_from_key`,
  `truncate_to_tokens`, `process_transcript_with_chunking` (the
  document normalizer / section chunker), and
  `insert_document_chunk_embeddings` (the upsert writer).
* `src/ingest/helpers.py`: `get_existing_oa_ids`, `process_case`,
  `process_oa` (the incremental-diff dispatcher) and `log_junk_to_s3`.
* `src/ingest/main.py`: the per-case gathering loop (junk handling for
  malformed cases).
* `src/transformers/main.py` and `src/services/ingest/main.py`: exit-code
  and signal-handler logic.

External effects (HTTP, S3, Postgres, the embedding model and its
tokenizer) are modelled as injected parameters: fallible operations return
`Except`, the tokenizer is a pair of functions `encode`/`decode`, the
remote API is a lookup function, and the S3 store is a listing of keys.
-/

namespace Scotustician

/-! ## Python string primitives -/

/-- Python `s.split(sep)` for a single-character separator: split on every
occurrence, keeping empty fields (`"a//b".split("/") == ["a","","b"]`,
`"".split("/") == [""]`). -/
def splitCharList (c : Char) : List Char → List (List Char)
  | [] => [[]]
  | x :: xs =>
    match splitCharList c xs with
    | [] => [[]]
    | y :: ys => if x = c then [] :: y :: ys else (x :: y) :: ys

/-- Python `sep.join(parts)` for a single-character separator. -/
def joinCharList (c : Char) : List (List Char) → List Char
  | [] => []
  | [y] => y
  | y :: y' :: ys => y ++ c :: joinCharList c (y' :: ys)

/-- Python `s.split(sep, 1)` (maxsplit = 1): locate the first occurrence of
the separator and return the parts before and after it, or `none` when the
separator does not occur. -/
def splitOnceChar (c : Char) : List Char → Option (List Char × List Char)
  | [] => none
  | x :: xs =>
    if x = c then some ([], xs)
    else (splitOnceChar c xs).map (fun p => (x :: p.1, p.2))

/-- Python `lst[-1]` on the (always non-empty) result of `str.split`. -/
def lastD (l : List (List Char)) : List Char := l.getLastD []

/-- Fuel-driven worker for Python `s.replace(old, new)` with a non-empty
pattern: scan left to right, replacing each (non-overlapping) occurrence.
The fuel only needs to be at least the length of the scanned list, since
every step consumes at least one character. -/
def pyReplaceAux (pat rep : List Char) : Nat → List Char → List Char
  | _, [] => []
  | 0, l => l
  | fuel + 1, x :: xs =>
    if pat.isPrefixOf (x :: xs) then
      rep ++ pyReplaceAux pat rep fuel ((x :: xs).drop pat.length)
    else
      x :: pyReplaceAux pat rep fuel xs

/-- Python `s.replace(old, new)` for a non-empty pattern `old`. -/
def pyReplace (pat rep l : List Char) : List Char :=
  pyReplaceAux pat rep l.length l

/-- Accumulator worker for Python `s.split()` (no argument): split on runs
of whitespace, discarding empty fields. `cur` holds the current word,
reversed. -/
def wordsAux (cur : List Char) : List Char → List (List Char)
  | [] => if cur.isEmpty then [] else [cur.reverse]
  | c :: cs =>
    if c.isWhitespace then
      if cur.isEmpty then wordsAux [] cs else cur.reverse :: wordsAux [] cs
    else wordsAux (c :: cur) cs

/-- Python `s.split()`: whitespace-separated words, no empty fields. -/
def pyWords (s : String) : List (List Char) := wordsAux [] s.data

/-- `len(s.split())`: the whitespace-separated word count of a string. -/
def wordCountPy (s : String) : Nat := (pyWords s).length

/-- Python `s.strip()`: remove leading and trailing whitespace. -/
def pyStrip (s : String) : String :=
  String.mk (((s.data.dropWhile Char.isWhitespace).reverse.dropWhile
    Char.isWhitespace).reverse)

/-! ## `extract_metadata_from_key` (src/transformers/helpers.py:438-453) -/

/-- The result record of `extract_metadata_from_key`. -/
structure KeyMeta where
  term : String
  case_name : String
  case_id : String
  oa_id : String
deriving DecidableEq

/-- `src/transformers/helpers.py:438-453` (`extract_metadata_from_key`):

    filename = key.split("/")[-1].replace(".json", "")
    oa_id = filename + ".json"
    if "_" in filename:
        term, case_name = filename.split("_", 1)
    else:
        term, case_name = "unknown", filename
    case_id = f"{term}_{case_name}"
-/
def extract_metadata_from_key (key : String) : KeyMeta :=
  let filename : List Char :=
    pyReplace ".json".data [] (lastD (splitCharList '/' key.data))
  let oaId : String := String.mk filename ++ ".json"
  match splitOnceChar '_' filename with
  | some (t, cn) =>
    { term := String.mk t, case_name := String.mk cn,
      case_id := String.mk t ++ "_" ++ String.mk cn, oa_id := oaId }
  | none =>
    { term := "unknown", case_name := String.mk filename,
      case_id := "unknown" ++ "_" ++ String.mk filename, oa_id := oaId }

/-! ## Tokenizer interface and `truncate_to_tokens`
(src/transformers/helpers.py:340-348) -/

/-- The HuggingFace tokenizer, treated as a black box: `encode` maps text to
a token-id sequence (`add_special_tokens=False`), `decode` maps a token-id
sequence back to text. -/
structure Tokenizer where
  encode : String → List Nat
  decode : List Nat → String

/-- `src/transformers/helpers.py:340-348` (`truncate_to_tokens`):

    tokens = tokenizer.encode(text, add_special_tokens=False)
    if len(tokens) <= max_tokens:
        return text
    truncated_tokens = tokens[:max_tokens]
    return tokenizer.decode(truncated_tokens, skip_special_tokens=True)
-/
def truncate_to_tokens (tk : Tokenizer) (text : String) (maxTokens : Nat) : String :=
  let tokens := tk.encode text
  if tokens.length ≤ maxTokens then text
  else tk.decode (tokens.take maxTokens)

/-! ## Transcript data model (the JSON shape the normalizer reads:
`transcript.sections[].turns[].speaker{name,id}` and `.text_blocks[].text`,
with optional timing fields). `Option` marks keys the code reads with
`.get` defaults. -/

structure SpeakerObj where
  name : Option String
  id : Option Int
deriving DecidableEq

structure TextBlock where
  text : Option String
  start_time_ms : Option Int
  end_time_ms : Option Int
deriving DecidableEq

structure Turn where
  speaker : Option SpeakerObj
  text_blocks : List TextBlock
deriving DecidableEq

structure TSection where
  turns : List Turn
deriving DecidableEq

/-- A raw document as the normalizer validates it: the outer `Option` is
presence of the `transcript` key, the inner one presence of
`transcript.sections`. (A `sections` value that is present but not a JSON
array fails the same `isinstance` validation as an empty one; it is folded
into the empty-list error below.) -/
structure RawDoc where
  transcript : Option (Option (List TSection))
deriving DecidableEq

/-- The metadata dict handed to the normalizer
(`extract_metadata_from_key` output, fields the normalizer reads). -/
structure MetaIds where
  case_id : String
  oa_id : String
deriving DecidableEq

/-- One row destined for `scotustician.oa_text`
(src/transformers/helpers.py:203-217). -/
structure Utterance where
  case_id : String
  oa_id : String
  utterance_index : Nat
  speaker_id : String
  speaker_name : String
  text : String
  word_count : Nat
  token_count : Nat
  char_start_offset : Nat
  char_end_offset : Nat
  start_time_ms : Option Int
  end_time_ms : Option Int
  source_key : String
deriving DecidableEq

/-- One section chunk before embeddings are attached
(src/transformers/helpers.py:237-245). -/
structure ChunkPre where
  section_id : Nat
  chunk_text : String
  word_count : Nat
  token_count : Nat
  start_utterance_index : Nat
  end_utterance_index : Nat
  utterance_count : Nat
deriving DecidableEq

/-! ## The normalizer / section chunker
(src/transformers/helpers.py:140-298, `process_transcript_with_chunking`).
The interior of the section loop is translated by state passing: the
mutable `global_utterance_idx` / `global_char_offset` pair becomes an
explicit `NState`, and the mutable `all_utterances_data`,
`section_utterances`, `section_texts` lists become accumulators. The
`shutdown_requested` polls are concurrency and are not modelled. -/

structure NState where
  idx : Nat
  off : Nat
deriving DecidableEq

/-- The text-block filter (src/transformers/helpers.py:196-198):

    text = block.get("text")
    if text and len(text.strip().split()) > 3:
        text = text.strip()

Returns the stripped text when the block is kept, `none` when dropped. -/
def keepText : Option String → Option String
  | none => none
  | some t =>
    if t ≠ "" ∧ 3 < wordCountPy (pyStrip t) then some (pyStrip t) else none

/-- Processing of one text block inside a turn
(src/transformers/helpers.py:195-224): when kept, emit the utterance
record, append the `"{speaker}: {text}"` line, and advance the index and
character offset. -/
def blockStep (tk : Tokenizer) (meta : MetaIds) (key speaker sid : String)
    (acc : NState × List Utterance × List String) (b : TextBlock) :
    NState × List Utterance × List String :=
  match keepText b.text with
  | none => acc
  | some t =>
    let (st, utts, texts) := acc
    let u : Utterance :=
      { case_id := meta.case_id, oa_id := meta.oa_id,
        utterance_index := st.idx,
        speaker_id := sid, speaker_name := speaker, text := t,
        word_count := wordCountPy t,
        token_count := (tk.encode t).length,
        char_start_offset := st.off,
        char_end_offset := st.off + t.length,
        start_time_ms := b.start_time_ms, end_time_ms := b.end_time_ms,
        source_key := key }
    (⟨st.idx + 1, st.off + t.length + 1⟩,
     utts ++ [u], texts ++ [speaker ++ ": " ++ t])

/-- Processing of one turn (src/transformers/helpers.py:187-193):

    speaker = turn.get("speaker", {}).get("name", "Unknown")
    speaker_id = str(turn.get("speaker", {}).get("id", ""))
-/
def turnStep (tk : Tokenizer) (meta : MetaIds) (key : String)
    (acc : NState × List Utterance × List String) (tn : Turn) :
    NState × List Utterance × List String :=
  let speaker := (tn.speaker.bind (·.name)).getD "Unknown"
  let sid :=
    match tn.speaker.bind (·.id) with
    | some n => toString n
    | none => ""
  tn.text_blocks.foldl (blockStep tk meta key speaker sid) acc

/-- The section loop (src/transformers/helpers.py:177-248): each section is
processed with the running `NState`; a chunk is created for the section
when it produced at least one `"{speaker}: {text}"` line, truncating the
joined text at the 8000-token budget (the source's
`chunk_text, token_count` reassignment under `if token_count > 8000` is
inlined into the two branches). `sid` is the `enumerate` counter; `mid` is
the state/utterance/text triple after this section's turns. -/
def sectionsLoop (tk : Tokenizer) (meta : MetaIds) (key : String) :
    NState → Nat → List TSection → NState × List Utterance × List ChunkPre
  | st, _, [] => (st, [], [])
  | st, sid, sec :: rest =>
    let mid := sec.turns.foldl (turnStep tk meta key) (st, [], [])
    let chunkOpt : Option ChunkPre :=
      if mid.2.2.isEmpty then none
      else
        let joined := String.intercalate "\n" mid.2.2
        let tc := (tk.encode joined).length
        if 8000 < tc then
          some { section_id := sid,
                 chunk_text := truncate_to_tokens tk joined 8000,
                 word_count := wordCountPy (truncate_to_tokens tk joined 8000),
                 token_count := 8000,
                 start_utterance_index := st.idx,
                 end_utterance_index := mid.1.idx - 1,
                 utterance_count := mid.2.1.length }
        else
          some { section_id := sid, chunk_text := joined,
                 word_count := wordCountPy joined, token_count := tc,
                 start_utterance_index := st.idx,
                 end_utterance_index := mid.1.idx - 1,
                 utterance_count := mid.2.1.length }
    let rest' := sectionsLoop tk meta key mid.1 (sid + 1) rest
    (rest'.1, mid.2.1 ++ rest'.2.1, chunkOpt.toList ++ rest'.2.2)

/-- `src/transformers/helpers.py:140-253` (`process_transcript_with_chunking`,
validation plus the section walk; the subsequent embedding generation and
insertion are modelled separately): validates `transcript.sections` as a
non-empty array, walks sections → turns → text blocks in document order,
and fails when no valid utterance was found. -/
def process_transcript_with_chunking (tk : Tokenizer) (meta : MetaIds)
    (key : String) (d : RawDoc) :
    Except String (List Utterance × List ChunkPre) :=
  match d.transcript with
  | none => .error "Missing expected keys: transcript.sections"
  | some none => .error "Missing expected keys: transcript.sections"
  | some (some sections) =>
    if sections.isEmpty then
      .error "Transcript sections is empty or malformed"
    else
      let r := sectionsLoop tk meta key ⟨0, 0⟩ 0 sections
      if r.2.1.isEmpty then .error "No valid utterances found in transcript"
      else .ok (r.2.1, r.2.2)

/-! ## Embedding attachment (src/transformers/helpers.py:265-298)
`model.encode(chunk_texts, ...)` is the injected black-box embedding
function, applied to each chunk text; its numeric entries are opaque here
(only the vector length matters to any claim), so a vector is a bare list. -/

/-- One row of `scotustician.document_chunk_embeddings`, exactly the twelve
columns inserted by `insert_document_chunk_embeddings`
(src/transformers/helpers.py:401-431). -/
structure Chunk where
  case_id : String
  oa_id : String
  section_id : Nat
  chunk_text : String
  vector : List Int
  word_count : Nat
  token_count : Nat
  start_utterance_index : Nat
  end_utterance_index : Nat
  embedding_model : String
  embedding_dimension : Nat
  source_key : String
deriving DecidableEq

/-- src/transformers/helpers.py:276-296: compute one embedding per chunk
text and attach it together with the document/model metadata
(`case_id`, `oa_id`, `vector`, `embedding_model`, `embedding_dimension`,
`source_key`). -/
def attachEmbeddings (embFn : String → List Int) (modelName : String)
    (modelDim : Nat) (meta : MetaIds) (key : String)
    (chunks : List ChunkPre) : List Chunk :=
  chunks.map fun ch =>
    { case_id := meta.case_id, oa_id := meta.oa_id,
      section_id := ch.section_id, chunk_text := ch.chunk_text,
      vector := embFn ch.chunk_text,
      word_count := ch.word_count, token_count := ch.token_count,
      start_utterance_index := ch.start_utterance_index,
      end_utterance_index := ch.end_utterance_index,
      embedding_model := modelName, embedding_dimension := modelDim,
      source_key := key }

/-! ## The upsert writer
(src/transformers/helpers.py:393-435, `insert_document_chunk_embeddings`).
The relational table is a list of rows with a unique constraint on
`(case_id, section_id)`; `INSERT ... ON CONFLICT (case_id, section_id) DO
UPDATE SET ...` updates every column of an existing conflicting row except
the untouched `case_id`, `oa_id`, `section_id`. The writer runs inside one
transaction committed after the loop, so an assertion failure rolls the
whole statement batch back (psycopg2 connections roll back on exception). -/

/-- The upsert conflict key `(case_id, section_id)`. -/
def chunkKey (c : Chunk) : String × Nat := (c.case_id, c.section_id)

/-- Effect of `DO UPDATE SET chunk_text = EXCLUDED.chunk_text, ...` on a
conflicting row: every listed column takes the new row's value; `case_id`,
`oa_id` and `section_id` are not in the update list and keep their stored
values. -/
def mergeChunkRow (old new : Chunk) : Chunk :=
  { old with
    chunk_text := new.chunk_text, vector := new.vector,
    word_count := new.word_count, token_count := new.token_count,
    start_utterance_index := new.start_utterance_index,
    end_utterance_index := new.end_utterance_index,
    embedding_model := new.embedding_model,
    embedding_dimension := new.embedding_dimension,
    source_key := new.source_key }

/-- One `INSERT ... ON CONFLICT ... DO UPDATE` against the chunk table. -/
def upsertChunkRow (t : List Chunk) (c : Chunk) : List Chunk :=
  if t.any (fun r => decide (chunkKey r = chunkKey c)) then
    t.map (fun r => if chunkKey r = chunkKey c then mergeChunkRow r c else r)
  else t ++ [c]

/-- The writer loop (src/transformers/helpers.py:396-433): for each chunk,
`assert len(chunk['vector']) == expected_dim` and then upsert; the
transaction commits only after the loop, and the assertion error aborts
it. -/
def insertChunksGo (t : List Chunk) : List Chunk → Except String (List Chunk)
  | [] => .ok t
  | c :: cs =>
    if c.vector.length = c.embedding_dimension then
      insertChunksGo (upsertChunkRow t c) cs
    else
      .error "Embedding has invalid dimension"

/-- `insert_document_chunk_embeddings(chunks, conn)`: returns the committed
table on success, an error (aborted transaction) otherwise. -/
def insert_document_chunk_embeddings (chunks : List Chunk)
    (t : List Chunk) : Except String (List Chunk) :=
  insertChunksGo t chunks

/-- The durable table after the call: the new table when the transaction
committed, the original table when it was rolled back by the raised
assertion. -/
def committedTable (chunks : List Chunk) (t : List Chunk) : List Chunk :=
  match insert_document_chunk_embeddings chunks t with
  | .ok t' => t'
  | .error _ => t

/-- Number of rows of the table carrying a given conflict key. -/
def rowCount (t : List Chunk) (k : String × Nat) : Nat :=
  t.countP (fun r => decide (chunkKey r = k))

/-- Per-document processing at the run level
(src/transformers/helpers.py:519-553, `process_key`): the insert's
exception is caught at the work-unit boundary and converted into a
per-item failure result, leaving the table as the rolled-back
transaction left it. -/
def processDoc (chunks : List Chunk) (t : List Chunk) : Bool × List Chunk :=
  match insert_document_chunk_embeddings chunks t with
  | .ok t' => (true, t')
  | .error _ => (false, t)

/-- The batch loop (src/transformers/main.py:218-283): process every
document's chunk list in order, collecting one success flag per document;
a failed document never aborts the loop. -/
def runDocs : List (List Chunk) → List Chunk → List Bool × List Chunk
  | [], t => ([], t)
  | d :: ds, t =>
    let (ok₁, t₁) := processDoc d t
    let (rs, t₂) := runDocs ds t₁
    (ok₁ :: rs, t₂)

/-! ## Exit codes and signal handling
(src/transformers/main.py:55-65 and 402-408;
src/services/ingest/main.py:31-44). -/

/-- The termination signals for which handlers are registered
(`signal.signal(signal.SIGTERM, ...)`, `signal.signal(signal.SIGINT, ...)`). -/
inductive Sig where
  | sigint
  | sigterm
deriving DecidableEq

/-- POSIX signal numbers of the handled signals. -/
def sigNum : Sig → Nat
  | .sigint => 2
  | .sigterm => 15

/-- src/transformers/main.py:402-408: the batch process's exit code.

    if shutdown_requested.is_set():
        sys.exit(130)  # hard-coded
    elif failed_count > 0:
        sys.exit(1)
    else:
        sys.exit(0)
-/
def transformersExitCode (shutdownRequested : Bool) (failedCount : Nat) : Nat :=
  if shutdownRequested then 130
  else if 0 < failedCount then 1
  else 0

/-- src/transformers/main.py:55-59: the signal handler only sets the shared
shutdown flag (for either handled signal), so a run interrupted by signal
`s` exits with `transformersExitCode true failedCount`. -/
def exitAfterSignal (_ : Sig) (failedCount : Nat) : Nat :=
  transformersExitCode true failedCount

/-- src/services/ingest/main.py:31-44: that variant's signal handler
cancels futures and then calls `sys.exit(0)` for either handled signal. -/
def svcIngestSignalHandlerExit (_ : Sig) : Nat := 0

/-! ## JSON values for the ingest pass. The enumerator and dispatcher
(src/ingest/*) handle parsed JSON duck-typed, so the embedding keeps the
dynamic value type, with Python truthiness and Python `==` semantics where
the source uses them. -/

inductive Json where
  | null
  | bool (b : Bool)
  | num (n : Int)
  | str (s : String)
  | arr (xs : List Json)
  | obj (kvs : List (String × Json))

/-- Python truthiness of a parsed-JSON value. -/
def truthy : Json → Bool
  | .null => false
  | .bool b => b
  | .num n => decide (n ≠ 0)
  | .str s => decide (s ≠ "")
  | .arr xs => !xs.isEmpty
  | .obj kvs => !kvs.isEmpty

/-- Truthiness of `d.get(k)`-style lookups (`None` when absent). -/
def truthyOpt : Option Json → Bool
  | none => false
  | some j => truthy j

/-- `dict.get(k)`: first binding of the key (parsed JSON objects have
unique keys). -/
def jGet : Json → String → Option Json
  | .obj kvs, k => (kvs.find? (fun kv => kv.1 == k)).map (·.2)
  | _, _ => none

/-- `isinstance(x, dict)`. -/
def isDict : Json → Bool
  | .obj _ => true
  | _ => false

/-- Python `f"{x}"` / `str(x)` rendering of the values that reach the key
format strings (ids are JSON numbers or strings in practice; the
collection cases never occur there and get placeholders). -/
def pyStr : Json → String
  | .null => "None"
  | .bool b => if b then "True" else "False"
  | .num n => toString n
  | .str s => s
  | .arr _ => "<arr>"
  | .obj _ => "<obj>"

/-- Python `x in existing_ids` where `existing_ids` is a set of `str`
(built by `get_existing_oa_ids`): only a string equal to a member tests
true; an `int`, `bool` or other value never equals a `str` under
Python `==`. -/
def membIds (oaId : Json) (ids : List String) : Bool :=
  match oaId with
  | .str s => ids.contains s
  | _ => false

mutual

/-- Python `json.dumps` on a parsed-JSON value (total: every parsed JSON
value is serializable). -/
def pyDumps : Json → String
  | .null => "null"
  | .bool b => if b then "true" else "false"
  | .num n => toString n
  | .str s => "\"" ++ s ++ "\""
  | .arr xs => "[" ++ String.intercalate ", " (pyDumpsList xs) ++ "]"
  | .obj kvs => "\x7b" ++ String.intercalate ", " (pyDumpsKVs kvs) ++ "\x7d"

/-- `json.dumps` of the elements of a JSON array. -/
def pyDumpsList : List Json → List String
  | [] => []
  | x :: xs => pyDumps x :: pyDumpsList xs

/-- `json.dumps` of the bindings of a JSON object. -/
def pyDumpsKVs : List (String × Json) → List String
  | [] => []
  | (k, v) :: kvs => ("\"" ++ k ++ "\": " ++ pyDumps v) :: pyDumpsKVs kvs

end

/-! ## The IngestedSetIndex (src/ingest/helpers.py:25-43,
`get_existing_oa_ids`) and the raw-store key written by the dispatcher
(src/ingest/helpers.py:106-142, `process_oa`). -/

/-- `src/ingest/helpers.py:31-38`: list the store and, for each key of the
form `raw/oa/{oa_id}_{timestamp}.json`, extract
`key.split('/')[-1].split('_')[0]`. The result is a set of strings;
membership is what matters, so it is kept as the extracted list. -/
def get_existing_oa_ids (keys : List String) : List String :=
  keys.filterMap fun key =>
    if "raw/oa/".data.isPrefixOf key.data ∧ '_' ∈ key.data then
      some (String.mk ((splitCharList '_' (lastD (splitCharList '/' key.data))).headD []))
    else none

/-- The raw-store key written by `process_oa`
(src/ingest/helpers.py:116): `f'raw/oa/{oa_id}_{timestamp}.json'`. -/
def oaStoreKey (oaId : Json) (timestamp : String) : String :=
  "raw/oa/" ++ pyStr oaId ++ "_" ++ timestamp ++ ".json"

/-- src/ingest/helpers.py:106-142 (`process_oa`), reduced to its storage
effect: a work unit whose `oa` entry has truthy `id` and `href` stores the
fetched document under `oaStoreKey`; malformed entries store nothing. -/
def process_oa_storedKey (oa : Json) (timestamp : String) : Option String :=
  if truthyOpt (jGet oa "id") ∧ truthyOpt (jGet oa "href") then
    some (oaStoreKey ((jGet oa "id").getD .null) timestamp)
  else none

/-- Per-run counters of `process_case` (src/ingest/helpers.py:147). -/
structure CaseStats where
  checked : Nat
  existing : Nat
  new : Nat
deriving DecidableEq

/-- A junk append attempt: the `(term, item, context)` triple handed to
`log_junk_to_s3`. -/
structure JunkAttempt where
  term : Int
  item : Json
  context : String

/-- The inner diff loop of `process_case` (src/ingest/helpers.py:165-179):
for each `oa` in `oral_argument_audio`, skip it as existing when
`oa_id and oa_id in existing_oa_ids`, otherwise append a work unit. The
work unit keeps the `enumerate` index and the `oa` entry; `term`, `case`
and `timestamp` ride along unchanged in the source tuple. -/
def diffOas (existing : List String) : List Json → Nat → List (Nat × Json) × CaseStats
  | [], _ => ([], ⟨0, 0, 0⟩)
  | oa :: rest, idx =>
    let (tasks, stats) := diffOas existing rest (idx + 1)
    if truthyOpt (jGet oa "id") ∧ membIds ((jGet oa "id").getD .null) existing then
      (tasks, ⟨stats.checked + 1, stats.existing + 1, stats.new⟩)
    else
      ((idx, oa) :: tasks, ⟨stats.checked + 1, stats.existing, stats.new + 1⟩)

/-- `src/ingest/helpers.py:144-179` (`process_case`): junk a case without a
docket number, fetch the full case record (`fetchFull` is the injected
`get_case_full`; `none` covers both a failed fetch and a falsy body),
require a non-empty `oral_argument_audio` array, then diff its entries
against the existing-id set. Returns (work units, diff stats, junk
appends). -/
def process_case (fetchFull : Int → String → Option Json) (term : Int)
    (case : Json) (timestamp : String) (existing : List String) :
    List (Nat × Json) × CaseStats × List JunkAttempt :=
  let docket := jGet case "docket_number"
  if ¬ truthyOpt docket then
    ([], ⟨0, 0, 0⟩, [⟨term, case, "missing_docket_number"⟩])
  else
    match fetchFull term (pyStr (docket.getD .null)) with
    | none => ([], ⟨0, 0, 0⟩, [])
    | some full =>
      if ¬ truthy full then ([], ⟨0, 0, 0⟩, [])
      else
        match jGet full "oral_argument_audio" with
        | some (.arr (oa :: oas)) =>
          let (tasks, stats) := diffOas existing (oa :: oas) 0
          (tasks, stats, [])
        | _ => ([], ⟨0, 0, 0⟩, [])

/-- One run of the incremental dispatcher over one case, at the storage
level: run `process_case` against the index rebuilt from the store's
current keys, then append the key written for each fetched work unit
(`process_oa`). Returns (work units, stats, resulting store keys). -/
def dispatchRun (fetchFull : Int → String → Option Json) (term : Int)
    (case : Json) (timestamp : String) (storeKeys : List String) :
    List (Nat × Json) × CaseStats × List String :=
  let existing := get_existing_oa_ids storeKeys
  let (tasks, stats, _) := process_case fetchFull term case timestamp existing
  (tasks, stats,
   storeKeys ++ tasks.filterMap (fun u => process_oa_storedKey u.2 timestamp))

/-! ## The JunkSink (src/ingest/main.py:61-74 and
src/ingest/helpers.py:45-58, `log_junk_to_s3`). The S3 `put_object` call
is injected and may fail; the `uuid4` junk id is injected. -/

/-- The abstract S3 store: keys with bodies. -/
def S3State := List (String × String)

/-- `log_junk_to_s3(term, item, context)`:

    junk_id = uuid.uuid4().hex
    key = f'junk/{term}_{context}_{junk_id}.json'
    body = json.dumps({"term": term, "context": context, "item": item}, ...)
    try:
        s3.put_object(...)
        logger.info(...)
    except Exception as e:
        logger.error(...)

The `try`/`except` turns any failure of the injected `put` into a plain
log line; the function itself returns normally either way. -/
def log_junk_to_s3 (put : String → String → Except String S3State)
    (st : S3State) (term : Int) (item : Json) (context : String)
    (junkId : String) : Except String S3State :=
  let key := "junk/" ++ toString term ++ "_" ++ context ++ "_" ++ junkId ++ ".json"
  let body := pyDumps (.obj [("term", .num term), ("context", .str context),
                             ("item", item)])
  match put key body with
  | .ok st' => .ok st'
  | .error _ => .ok st

/-! ## The gathering loop of src/ingest/main.py:173-211 (per-case junk
handling and counters). `process_case` here is main.py's own local variant
(src/ingest/main.py:137-157), which enumerates every oral argument with no
existing-id filter. -/

/-- Aggregate output of the gathering loop for the claims: the emitted
work units, the junk appends, and the summary counters touched per case. -/
structure GatherOut where
  tasks : List (Nat × Json)
  junk : List JunkAttempt
  cases_total : Nat
  cases_with_docket : Nat
  cases_with_oa : Nat
  cases_skipped : Nat

/-- src/ingest/main.py:137-157 (the local `process_case`): same structure
as the helpers variant but without the existing-id diff. -/
def main_process_case (fetchFull : Int → String → Option Json) (term : Int)
    (case : Json) : List (Nat × Json) × List JunkAttempt :=
  if ¬ truthyOpt (jGet case "docket_number") then
    ([], [⟨term, case, "missing_docket_number"⟩])
  else
    match fetchFull term (pyStr ((jGet case "docket_number").getD .null)) with
    | none => ([], [])
    | some full =>
      if ¬ truthy full then ([], [])
      else
        match jGet full "oral_argument_audio" with
        | some (.arr (oa :: oas)) => ((oa :: oas).enum, [])
        | _ => ([], [])

/-- src/ingest/main.py:179-207, the body run for one enumerated case:

    cases_total += 1
    if not isinstance(case, dict): log_junk(..., "non_dict_case"); skip
    elif not case.get("docket_number"): log_junk(..., "missing_docket_number"); skip
    else: subtasks = process_case(...); count; tasks.extend(subtasks)
-/
def mainCaseStep (fetchFull : Int → String → Option Json) (term : Int)
    (case : Json) : GatherOut :=
  if ¬ isDict case then
    { tasks := [], junk := [⟨term, case, "non_dict_case"⟩],
      cases_total := 1, cases_with_docket := 0, cases_with_oa := 0,
      cases_skipped := 1 }
  else if ¬ truthyOpt (jGet case "docket_number") then
    { tasks := [], junk := [⟨term, case, "missing_docket_number"⟩],
      cases_total := 1, cases_with_docket := 0, cases_with_oa := 0,
      cases_skipped := 1 }
  else
    let (subtasks, junk) := main_process_case fetchFull term case
    { tasks := subtasks, junk := junk,
      cases_total := 1, cases_with_docket := 1,
      cases_with_oa := if subtasks.isEmpty then 0 else 1,
      cases_skipped := if subtasks.isEmpty then 1 else 0 }

/-- Pointwise combination of the loop's accumulated output. -/
def combineGather (a b : GatherOut) : GatherOut :=
  { tasks := a.tasks ++ b.tasks, junk := a.junk ++ b.junk,
    cases_total := a.cases_total + b.cases_total,
    cases_with_docket := a.cases_with_docket + b.cases_with_docket,
    cases_with_oa := a.cases_with_oa + b.cases_with_oa,
    cases_skipped := a.cases_skipped + b.cases_skipped }

/-- The loop over one term's case list (src/ingest/main.py:179-207): each
case is handled in turn; junking a malformed case never stops the loop. -/
def gatherCases (fetchFull : Int → String → Option Json) (term : Int) :
    List Json → GatherOut
  | [] =>
    { tasks := [], junk := [], cases_total := 0, cases_with_docket := 0,
      cases_with_oa := 0, cases_skipped := 0 }
  | case :: rest =>
    combineGather (mainCaseStep fetchFull term case)
      (gatherCases fetchFull term rest)

/-! ## Specification-side characterizations of the normalizer
(used to state density/stability and the word filter; these are the
reference functions of the document's text blocks alone). -/

/-- The stripped texts of the kept blocks of a block list, in order. -/
def keptOfBlocks (bs : List TextBlock) : List String :=
  bs.filterMap (fun b => keepText b.text)

/-- The stripped texts of the kept blocks of one turn. -/
def keptOfTurn (tn : Turn) : List String := keptOfBlocks tn.text_blocks

/-- The stripped texts of the kept blocks of one section, in order. -/
def keptOfSection (sec : TSection) : List String :=
  sec.turns.bind keptOfTurn

/-- The stripped texts of all kept blocks of a section list, in document
order. -/
def keptTexts (secs : List TSection) : List String :=
  secs.bind keptOfSection

/-- The kept texts of a raw document (empty when validation fails). -/
def docKeptTexts (d : RawDoc) : List String :=
  match d.transcript with
  | some (some secs) => keptTexts secs
  | _ => []

/-- The running character offsets assigned to a kept-text list starting at
offset `c` (each text advances the offset by its length plus one). -/
def offsetsFrom (c : Nat) : List String → List Nat
  | [] => []
  | t :: rest => c :: offsetsFrom (c + t.length + 1) rest

/-- Total character footprint of a kept-text list (length + 1 each). -/
def sumLen (l : List String) : Nat := (l.map (fun t => t.length + 1)).sum

/-- The whitespace word count of a text block (0 for an absent text). -/
def blockWordCount (b : TextBlock) : Nat :=
  match b.text with
  | some t => wordCountPy t
  | none => 0

/-! ## Concrete sample values used by claim witnesses -/

/-- A character-level tokenizer instance: one token per character. -/
def charTok : Tokenizer :=
  { encode := fun s => s.data.map Char.toNat,
    decode := fun ts => String.mk (ts.map Char.ofNat) }

/-- A degenerate second tokenizer instance (always one token). -/
def constTok : Tokenizer :=
  { encode := fun _ => [0], decode := fun _ => "" }

/-- A sample transcript document: one section, one turn, one kept text
block (five words) and one dropped text block (two words). -/
def sampleDoc : RawDoc :=
  { transcript := some (some
      [{ turns :=
          [{ speaker := some { name := some "MR X", id := some 7 },
             text_blocks :=
              [{ text := some "a b c d e", start_time_ms := some 10,
                 end_time_ms := some 20 },
               { text := some "uh huh", start_time_ms := none,
                 end_time_ms := none }] }] }]) }

/-- Sample metadata ids. -/
def sampleMeta : MetaIds := { case_id := "2024_x", oa_id := "2024_x.json" }

/-- A text of 8001 characters (8001 tokens under `charTok`). -/
def bigText : String := String.mk (List.replicate 8001 'a')

/-- A chunk row whose vector length matches its dimension. -/
def sampleGoodChunk : Chunk :=
  { case_id := "2024_x", oa_id := "2024_x.json", section_id := 0,
    chunk_text := "MR X: a b c d e", vector := [1, 2, 3, 4],
    word_count := 6, token_count := 9, start_utterance_index := 0,
    end_utterance_index := 0, embedding_model := "baai/bge-m3",
    embedding_dimension := 4, source_key := "raw/oa/2024_x.json" }

/-- A chunk row whose vector length does not match its dimension. -/
def sampleBadChunk : Chunk :=
  { sampleGoodChunk with vector := [1, 2, 3] }

/-- An oral-argument reference with the string id `"A"`. -/
def oaEntryA : Json := Json.obj [("id", Json.str "A"), ("href", Json.str "hA")]

/-- An oral-argument reference with the string id `"B"`. -/
def oaEntryB : Json := Json.obj [("id", Json.str "B"), ("href", Json.str "hB")]

/-- An oral-argument reference with the JSON-number id `42` (the Oyez API
serves numeric ids; compare `int(oa_id)` in
src/services/ingest/main.py:86 and the spec scenario `id=42`). -/
def oaEntryC : Json := Json.obj [("id", Json.num 42), ("href", Json.str "u42")]

/-- A well-formed case record. -/
def sampleCase : Json := Json.obj [("docket_number", Json.str "21-123")]

/-- A remote API whose full-case record lists the three oral arguments. -/
def sampleFetch : Int → String → Option Json := fun _ _ =>
  some (Json.obj [("oral_argument_audio",
    Json.arr [oaEntryA, oaEntryB, oaEntryC])])

/-- Raw-store keys from an earlier run that ingested `"A"` and `"B"`. -/
def runKeys0 : List String := ["raw/oa/A_t0.json", "raw/oa/B_t0.json"]

/-! ## Supporting lemmas on the string primitives -/

theorem splitCharList_ne_nil (c : Char) (l : List Char) :
    splitCharList c l ≠ [] := by
  cases l with
  | nil => simp [splitCharList]
  | cons x xs =>
    simp only [splitCharList]
    cases h : splitCharList c xs with
    | nil => simp
    | cons y ys =>
      by_cases hx : x = c <;> simp [hx]

theorem noSep_split (c : Char) (l : List Char) (h : c ∉ l) :
    splitCharList c l = [l] := by
  induction l with
  | nil => rfl
  | cons x xs ih =>
    have hx : x ≠ c := fun he => h (he ▸ List.mem_cons_self x xs)
    have hxs : c ∉ xs := fun hm => h (List.mem_cons_of_mem x hm)
    simp only [splitCharList, ih hxs]
    simp [hx]

theorem split_length_two (c : Char) (l : List Char) (h : c ∈ l) :
    2 ≤ (splitCharList c l).length := by
  induction l with
  | nil => simp at h
  | cons x xs ih =>
    simp only [splitCharList]
    cases hs : splitCharList c xs with
    | nil => exact absurd hs (splitCharList_ne_nil c xs)
    | cons y ys =>
      by_cases hx : x = c
      · simp [hx]
      · have hm : c ∈ xs := by
          rcases List.mem_cons.mp h with h' | h'
          · exact absurd h'.symm hx
          · exact h'
        have := ih hm
        rw [hs] at this
        simp only [List.length_cons] at this ⊢
        simpa [hx] using this

theorem lastD_split_app (c : Char) (l₁ l₂ : List Char) (h : c ∉ l₂) :
    lastD (splitCharList c (l₁ ++ c :: l₂)) = l₂ := by
  induction l₁ with
  | nil =>
    simp only [List.nil_append, splitCharList, noSep_split c l₂ h]
    simp [lastD, List.getLastD]
  | cons x l₁' ih =>
    simp only [List.cons_append, splitCharList]
    cases hs : splitCharList c (l₁' ++ c :: l₂) with
    | nil => exact absurd hs (splitCharList_ne_nil c _)
    | cons y ys =>
      have hys : ys ≠ [] := by
        have h2 := split_length_two c (l₁' ++ c :: l₂)
          (List.mem_append_right l₁' (List.mem_cons_self c l₂))
        rw [hs] at h2
        intro he
        rw [he] at h2
        simp at h2
      have hlast : lastD (y :: ys) = l₂ := by rw [← hs]; exact ih
      by_cases hx : x = c
      · simpa [hx, lastD, List.getLastD] using hlast
      · simp only [hx, if_false, lastD, List.getLastD] at hlast ⊢
        cases ys with
        | nil => exact absurd rfl hys
        | cons z zs => exact hlast

theorem pyReplaceAux_nil (pat rep : List Char) (fuel : Nat) :
    pyReplaceAux pat rep fuel [] = [] := by
  cases fuel <;> rfl

theorem pyReplaceAux_append_pat (p : Char) (pat' : List Char) (f : List Char) :
    ∀ fuel : Nat, f.length + (p :: pat').length ≤ fuel → p ∉ f →
    pyReplaceAux (p :: pat') [] fuel (f ++ (p :: pat')) = f := by
  induction f with
  | nil =>
    intro fuel hfuel _
    match fuel, hfuel with
    | fuel' + 1, _ =>
      show pyReplaceAux (p :: pat') [] (fuel' + 1) ([] ++ p :: pat') = []
      rw [List.nil_append]
      simp only [pyReplaceAux]
      have hpre : (p :: pat').isPrefixOf (p :: pat') = true := by
        rw [List.isPrefixOf_iff_prefix]
      rw [hpre]
      simp only [if_true, List.drop_length, List.nil_append]
      exact pyReplaceAux_nil _ _ _
  | cons ch f' ih =>
    intro fuel hfuel hd
    have hch : ch ≠ p := fun he => hd (he ▸ List.mem_cons_self ch f')
    have hd' : p ∉ f' := fun hm => hd (List.mem_cons_of_mem ch hm)
    match fuel, hfuel with
    | fuel' + 1, hfuel =>
      show pyReplaceAux (p :: pat') [] (fuel' + 1) ((ch :: f') ++ p :: pat')
        = ch :: f'
      rw [List.cons_append]
      simp only [pyReplaceAux]
      have hpre : (p :: pat').isPrefixOf (ch :: (f' ++ p :: pat')) = false := by
        simp only [List.isPrefixOf, Bool.and_eq_false_iff]
        left
        simp [beq_iff_eq]
        exact fun he => hch he.symm
      rw [hpre]
      simp only [Bool.false_eq_true, if_false, List.cons.injEq, true_and]
      exact ih fuel' (by simp only [List.length_cons] at hfuel ⊢; omega) hd'

theorem pyReplace_append_pat (f : List Char) (hd : '.' ∉ f) :
    pyReplace ".json".data [] (f ++ ".json".data) = f := by
  unfold pyReplace
  exact pyReplaceAux_append_pat '.' "json".data f (f ++ ".json".data).length
    (by simp) hd

theorem splitOnceChar_spec (c : Char) (l : List Char) (h : c ∈ l) :
    ∃ a b, splitOnceChar c l = some (a, b) ∧ l = a ++ c :: b ∧ c ∉ a := by
  induction l with
  | nil => simp at h
  | cons x xs ih =>
    by_cases hx : x = c
    · exact ⟨[], xs, by simp [splitOnceChar, hx], by simp [hx], by simp⟩
    · have hm : c ∈ xs := by
        rcases List.mem_cons.mp h with h' | h'
        · exact absurd h'.symm hx
        · exact h'
      obtain ⟨a, b, h1, h2, h3⟩ := ih hm
      refine ⟨x :: a, b, ?_, ?_, ?_⟩
      · simp [splitOnceChar, hx, h1]
      · simp [h2]
      · intro hc
        rcases List.mem_cons.mp hc with h' | h'
        · exact hx h'.symm
        · exact h3 h'

/-! ## Theorems for the claims -/

/-- **C10.** For a storage key whose final path component is `f.json` (with
`f` a plain name: no `/`, no `.`, containing `_`), `extract_metadata_from_key`
returns `oa_id = f ++ ".json"`, `case_id = f`, and `term` equal to the text
before `f`'s first underscore. Consequently, for raw keys
`raw/oa/{oa_id}_{timestamp}.json` the `case_id` used as the relational
upsert key embeds the run timestamp: the same oral argument fetched in two
runs with different timestamps is upserted under two distinct `case_id`
values. -/
theorem c10_extract_metadata_key (dir f : String)
    (hdot : '.' ∉ f.data) (hslash : '/' ∉ f.data) (hus : '_' ∈ f.data) :
    (extract_metadata_from_key (dir ++ "/" ++ f ++ ".json")).oa_id = f ++ ".json" ∧
    (extract_metadata_from_key (dir ++ "/" ++ f ++ ".json")).case_id = f ∧
    (∃ a b, f.data = a ++ '_' :: b ∧ '_' ∉ a ∧
      (extract_metadata_from_key (dir ++ "/" ++ f ++ ".json")).term = String.mk a) ∧
    (∀ oaid ts₁ ts₂ : String,
      '.' ∉ oaid.data → '/' ∉ oaid.data → '.' ∉ ts₁.data → '/' ∉ ts₁.data →
      '.' ∉ ts₂.data → '/' ∉ ts₂.data → ts₁ ≠ ts₂ →
      (extract_metadata_from_key ("raw/oa" ++ "/" ++ (oaid ++ "_" ++ ts₁) ++ ".json")).case_id ≠
      (extract_metadata_from_key ("raw/oa" ++ "/" ++ (oaid ++ "_" ++ ts₂) ++ ".json")).case_id) := by
  have main : ∀ (dir f : String), '.' ∉ f.data → '/' ∉ f.data → '_' ∈ f.data →
      (extract_metadata_from_key (dir ++ "/" ++ f ++ ".json")).oa_id = f ++ ".json" ∧
      (extract_metadata_from_key (dir ++ "/" ++ f ++ ".json")).case_id = f ∧
      (∃ a b, f.data = a ++ '_' :: b ∧ '_' ∉ a ∧
        (extract_metadata_from_key (dir ++ "/" ++ f ++ ".json")).term = String.mk a) := by
    intro dir f hdot hslash hus
    have hkey : (dir ++ "/" ++ f ++ ".json").data
        = dir.data ++ '/' :: (f.data ++ ".json".data) := by
      simp [String.data_append]
    have hno : '/' ∉ f.data ++ ".json".data := by
      intro hm
      rcases List.mem_append.mp hm with h' | h'
      · exact hslash h'
      · simp at h'
    have hfile : pyReplace ".json".data []
        (lastD (splitCharList '/' (dir ++ "/" ++ f ++ ".json").data)) = f.data := by
      rw [hkey, lastD_split_app '/' dir.data _ hno]
      exact pyReplace_append_pat f.data hdot
    obtain ⟨a, b, hsp, hrec, hna⟩ := splitOnceChar_spec '_' f.data hus
    refine ⟨?_, ?_, a, b, hrec, hna, ?_⟩
    · simp only [extract_metadata_from_key, hfile, hsp]
    · simp only [extract_metadata_from_key, hfile, hsp]
      apply String.ext
      simp [String.data_append, ← hrec]
    · simp only [extract_metadata_from_key, hfile, hsp]
  refine ⟨(main dir f hdot hslash hus).1, (main dir f hdot hslash hus).2.1,
    (main dir f hdot hslash hus).2.2, ?_⟩
  intro oaid ts₁ ts₂ hd₁ hs₁ hd₂ hs₂ hd₃ hs₃ hne
  have mem₁ : '_' ∈ (oaid ++ "_" ++ ts₁).data := by
    simp [String.data_append]
  have mem₂ : '_' ∈ (oaid ++ "_" ++ ts₂).data := by
    simp [String.data_append]
  have nd₁ : '.' ∉ (oaid ++ "_" ++ ts₁).data := by
    simp only [String.data_append]
    intro hm
    rcases List.mem_append.mp hm with h' | h'
    · rcases List.mem_append.mp h' with h'' | h''
      · exact hd₁ h''
      · simp at h''
    · exact hd₂ h'
  have nd₂ : '.' ∉ (oaid ++ "_" ++ ts₂).data := by
    simp only [String.data_append]
    intro hm
    rcases List.mem_append.mp hm with h' | h'
    · rcases List.mem_append.mp h' with h'' | h''
      · exact hd₁ h''
      · simp at h''
    · exact hd₃ h'
  have ns₁ : '/' ∉ (oaid ++ "_" ++ ts₁).data := by
    simp only [String.data_append]
    intro hm
    rcases List.mem_append.mp hm with h' | h'
    · rcases List.mem_append.mp h' with h'' | h''
      · exact hs₁ h''
      · simp at h''
    · exact hs₂ h'
  have ns₂ : '/' ∉ (oaid ++ "_" ++ ts₂).data := by
    simp only [String.data_append]
    intro hm
    rcases List.mem_append.mp hm with h' | h'
    · rcases List.mem_append.mp h' with h'' | h''
      · exact hs₁ h''
      · simp at h''
    · exact hs₃ h'
  have e₁ := (main "raw/oa" (oaid ++ "_" ++ ts₁) nd₁ ns₁ mem₁).2.1
  have e₂ := (main "raw/oa" (oaid ++ "_" ++ ts₂) nd₂ ns₂ mem₂).2.1
  rw [e₁, e₂]
  intro he
  apply hne
  have : (oaid ++ "_").data ++ ts₁.data = (oaid ++ "_").data ++ ts₂.data := by
    have h1 : (oaid ++ "_" ++ ts₁).data = (oaid ++ "_").data ++ ts₁.data := by
      simp [String.data_append]
    have h2 : (oaid ++ "_" ++ ts₂).data = (oaid ++ "_").data ++ ts₂.data := by
      simp [String.data_append]
    rw [← h1, ← h2, he]
  exact String.ext (List.append_cancel_left this)

/-- **C10 witness.** The theorem at the concrete raw key
`raw/oa/42_20240101_120000.json` and at two runs' keys for the same oral
argument id `42`. -/
theorem c10_extract_metadata_key_witness :
    (extract_metadata_from_key ("raw/oa" ++ "/" ++ "42_20240101_120000" ++ ".json")).oa_id
      = "42_20240101_120000" ++ ".json" ∧
    (extract_metadata_from_key ("raw/oa" ++ "/" ++ "42_20240101_120000" ++ ".json")).case_id
      = "42_20240101_120000" ∧
    (extract_metadata_from_key ("raw/oa" ++ "/" ++ ("42" ++ "_" ++ "20240101_120000") ++ ".json")).case_id ≠
    (extract_metadata_from_key ("raw/oa" ++ "/" ++ ("42" ++ "_" ++ "20240202_130000") ++ ".json")).case_id := by
  have h := c10_extract_metadata_key "raw/oa" "42_20240101_120000"
    (by decide) (by decide) (by decide)
  exact ⟨h.1, h.2.1,
    h.2.2.2 "42" "20240101_120000" "20240202_130000"
      (by decide) (by decide) (by decide) (by decide) (by decide) (by decide)
      (by decide)⟩

/-- **C8.** `log_junk_to_s3` never raises to its caller: for every injected
`put_object` behaviour (including every failing one), every term, item,
context and junk id, the call returns normally — the `try`/`except` turns a
persistence failure into a log line. -/
theorem c8_junk_sink_never_raises
    (put : String → String → Except String S3State) (st : S3State)
    (term : Int) (item : Json) (context junkId : String) :
    ∃ st', log_junk_to_s3 put st term item context junkId = .ok st' := by
  cases h : put ("junk/" ++ toString term ++ "_" ++ context ++ "_" ++ junkId
      ++ ".json")
      (pyDumps (.obj [("term", .num term), ("context", .str context),
        ("item", item)])) with
  | ok st' => exact ⟨st', by simp [log_junk_to_s3, h]⟩
  | error e => exact ⟨st, by simp [log_junk_to_s3, h]⟩

/-- **C6 counterexample.** The claim "128 plus the number of the received
signal" fails on the code: the batch transformer hard-codes exit code 130
for every interrupted run, so a run interrupted by SIGTERM (signal 15)
exits 130, not 128 + 15 = 143; the services-ingest variant's handler even
exits 0 on a signal. -/
theorem c6_exit_code_counterexample :
    exitAfterSignal .sigterm 0 = 130 ∧
    128 + sigNum .sigterm = 143 ∧
    exitAfterSignal .sigterm 0 ≠ 128 + sigNum .sigterm ∧
    svcIngestSignalHandlerExit .sigterm ≠ 128 + sigNum .sigterm := by
  refine ⟨rfl, rfl, ?_, ?_⟩ <;> decide

/-- **C6 (amended).** The exit code is 0 on completion with zero item-level
failures and 1 on completion with at least one failure; on external
interruption by either handled signal the process exits with the fixed
code 130 (= 128 + SIGINT) regardless of which signal was received, and the
services-ingest variant's signal handler exits 0. -/
theorem c6_exit_codes_amended (failedCount : Nat) (h : 0 < failedCount) :
    transformersExitCode false 0 = 0 ∧
    transformersExitCode false failedCount = 1 ∧
    (∀ s : Sig, exitAfterSignal s failedCount = 130) ∧
    (∀ s : Sig, svcIngestSignalHandlerExit s = 0) := by
  refine ⟨rfl, ?_, fun s => rfl, fun s => rfl⟩
  simp [transformersExitCode, h]

/-- **C6 amended witness.** The amended exit-code theorem at
`failedCount = 2`. -/
theorem c6_exit_codes_amended_witness :
    transformersExitCode false 0 = 0 ∧ transformersExitCode false 2 = 1 ∧
    exitAfterSignal .sigterm 2 = 130 ∧ svcIngestSignalHandlerExit .sigint = 0 := by
  obtain ⟨h0, h1, h2, h3⟩ := c6_exit_codes_amended 2 (by decide)
  exact ⟨h0, h1, h2 .sigterm, h3 .sigint⟩

/-- **C7.** In the per-case gathering loop, a case entry that is not
map-shaped produces exactly one junk append with context `non_dict_case`
and zero work units; a map-shaped entry without a truthy `docket_number`
produces exactly one junk append with context `missing_docket_number` and
zero work units; and in both situations the loop continues with the
remaining cases (their work units and junk are unaffected). -/
theorem c7_malformed_case (fetchFull : Int → String → Option Json)
    (term : Int) (case1 case2 : Json) (rest : List Json)
    (h1 : isDict case1 = false)
    (h2 : isDict case2 = true)
    (h3 : truthyOpt (jGet case2 "docket_number") = false) :
    mainCaseStep fetchFull term case1 =
      { tasks := [], junk := [⟨term, case1, "non_dict_case"⟩],
        cases_total := 1, cases_with_docket := 0, cases_with_oa := 0,
        cases_skipped := 1 } ∧
    mainCaseStep fetchFull term case2 =
      { tasks := [], junk := [⟨term, case2, "missing_docket_number"⟩],
        cases_total := 1, cases_with_docket := 0, cases_with_oa := 0,
        cases_skipped := 1 } ∧
    (gatherCases fetchFull term (case1 :: rest)).tasks
      = (gatherCases fetchFull term rest).tasks ∧
    (gatherCases fetchFull term (case1 :: rest)).junk
      = ⟨term, case1, "non_dict_case"⟩ :: (gatherCases fetchFull term rest).junk ∧
    (gatherCases fetchFull term (case2 :: rest)).tasks
      = (gatherCases fetchFull term rest).tasks ∧
    (gatherCases fetchFull term (case2 :: rest)).junk
      = ⟨term, case2, "missing_docket_number"⟩ :: (gatherCases fetchFull term rest).junk := by
  have e1 : mainCaseStep fetchFull term case1 =
      { tasks := [], junk := [⟨term, case1, "non_dict_case"⟩],
        cases_total := 1, cases_with_docket := 0, cases_with_oa := 0,
        cases_skipped := 1 } := by
    simp [mainCaseStep, h1]
  have e2 : mainCaseStep fetchFull term case2 =
      { tasks := [], junk := [⟨term, case2, "missing_docket_number"⟩],
        cases_total := 1, cases_with_docket := 0, cases_with_oa := 0,
        cases_skipped := 1 } := by
    simp [mainCaseStep, h2, h3]
  refine ⟨e1, e2, ?_, ?_, ?_, ?_⟩ <;>
    simp [gatherCases, combineGather, e1, e2]

/-- **C7 witness.** The theorem at a concrete malformed pair: the string
entry `"oops"` (not a dict) and the dict `{"ID": 1}` (no docket number),
against an empty remainder of the case list. -/
theorem c7_malformed_case_witness :
    (mainCaseStep (fun _ _ => none) 2024 (Json.str "oops")).junk
      = [⟨2024, Json.str "oops", "non_dict_case"⟩] ∧
    (mainCaseStep (fun _ _ => none) 2024 (Json.str "oops")).tasks = [] ∧
    (mainCaseStep (fun _ _ => none) 2024 (Json.obj [("ID", Json.num 1)])).junk
      = [⟨2024, Json.obj [("ID", Json.num 1)], "missing_docket_number"⟩] ∧
    (mainCaseStep (fun _ _ => none) 2024 (Json.obj [("ID", Json.num 1)])).tasks = [] := by
  have h := c7_malformed_case (fun _ _ => none) 2024 (Json.str "oops")
    (Json.obj [("ID", Json.num 1)]) [] rfl rfl rfl
  exact ⟨by rw [h.1], by rw [h.1], by rw [h.2.1], by rw [h.2.1]⟩

/-! ## Supporting lemmas on the upsert writer -/

theorem chunkKey_merge (r c : Chunk) :
    chunkKey (mergeChunkRow r c) = chunkKey r := rfl

theorem mergeChunkRow_eq_self (r₀ c : Chunk) (hk : chunkKey r₀ = chunkKey c)
    (hoa : r₀.oa_id = c.oa_id) : mergeChunkRow r₀ c = c := by
  have hk' : r₀.case_id = c.case_id ∧ r₀.section_id = c.section_id := by
    simpa [chunkKey, Prod.ext_iff] using hk
  cases r₀; cases c
  simp_all [mergeChunkRow]

theorem mem_upsertChunkRow (t : List Chunk) (c r : Chunk)
    (hr : r ∈ upsertChunkRow t c) :
    (r ∈ t ∧ chunkKey r ≠ chunkKey c) ∨ r = c ∨
      ∃ r₀ ∈ t, chunkKey r₀ = chunkKey c ∧ r = mergeChunkRow r₀ c := by
  unfold upsertChunkRow at hr
  by_cases hany : t.any (fun x => decide (chunkKey x = chunkKey c)) = true
  · rw [if_pos hany] at hr
    obtain ⟨r₀, hr₀, hfr⟩ := List.mem_map.mp hr
    by_cases hk : chunkKey r₀ = chunkKey c
    · right; right
      exact ⟨r₀, hr₀, hk, by rw [← hfr, if_pos hk]⟩
    · left
      rw [← hfr, if_neg hk]
      exact ⟨hr₀, hk⟩
  · rw [if_neg hany] at hr
    rcases List.mem_append.mp hr with h | h
    · refine Or.inl ⟨h, fun hk => hany ?_⟩
      exact List.any_eq_true.mpr ⟨r, h, decide_eq_true hk⟩
    · exact Or.inr (Or.inl (List.mem_singleton.mp h))

theorem rowCount_upsertChunkRow (t : List Chunk) (c : Chunk)
    (h : rowCount t (chunkKey c) ≤ 1) :
    rowCount (upsertChunkRow t c) (chunkKey c) = 1 := by
  unfold upsertChunkRow rowCount
  by_cases hany : t.any (fun x => decide (chunkKey x = chunkKey c)) = true
  · rw [if_pos hany, List.countP_map]
    have heq : ∀ x ∈ t,
        ((fun r => decide (chunkKey r = chunkKey c)) ∘
          (fun r => if chunkKey r = chunkKey c then mergeChunkRow r c else r)) x = true
        ↔ (fun r => decide (chunkKey r = chunkKey c)) x = true := by
      intro x _
      by_cases hk : chunkKey x = chunkKey c <;>
        simp [hk, chunkKey_merge]
    rw [List.countP_congr heq]
    obtain ⟨x, hx, hpx⟩ := List.any_eq_true.mp hany
    have hpos : 0 < t.countP (fun r => decide (chunkKey r = chunkKey c)) :=
      List.countP_pos.mpr ⟨x, hx, hpx⟩
    have hle : t.countP (fun r => decide (chunkKey r = chunkKey c)) ≤ 1 := h
    omega
  · rw [if_neg hany, List.countP_append]
    have h0 : t.countP (fun r => decide (chunkKey r = chunkKey c)) = 0 := by
      rw [List.countP_eq_zero]
      intro a ha
      intro hpa
      exact hany (List.any_eq_true.mpr ⟨a, ha, hpa⟩)
    simp [h0, List.countP_cons]

theorem rowCount_le_one_of_pairwise (t : List Chunk)
    (h : t.Pairwise (fun a b => chunkKey a ≠ chunkKey b)) (k : String × Nat) :
    rowCount t k ≤ 1 := by
  induction t with
  | nil => simp [rowCount]
  | cons a t ih =>
    have hpa := List.pairwise_cons.mp h
    by_cases hk : chunkKey a = k
    · have h0 : t.countP (fun r => decide (chunkKey r = k)) = 0 := by
        rw [List.countP_eq_zero]
        intro b hb hpb
        exact hpa.1 b hb (by rw [hk, of_decide_eq_true hpb])
      simp [rowCount, List.countP_cons, hk, h0]
    · have ht := ih hpa.2
      simp only [rowCount, List.countP_cons] at ht ⊢
      simpa [hk] using ht

theorem upsertChunkRow_pairwise (t : List Chunk) (c : Chunk)
    (h : t.Pairwise (fun a b => chunkKey a ≠ chunkKey b)) :
    (upsertChunkRow t c).Pairwise (fun a b => chunkKey a ≠ chunkKey b) := by
  unfold upsertChunkRow
  by_cases hany : t.any (fun x => decide (chunkKey x = chunkKey c)) = true
  · rw [if_pos hany, List.pairwise_map]
    have hkf : ∀ x : Chunk,
        chunkKey (if chunkKey x = chunkKey c then mergeChunkRow x c else x)
          = chunkKey x := by
      intro x
      by_cases hx : chunkKey x = chunkKey c <;> simp [hx, chunkKey_merge]
    refine List.Pairwise.imp ?_ h
    intro a b hab
    rw [hkf a, hkf b]
    exact hab
  · rw [if_neg hany, List.pairwise_append]
    refine ⟨h, by simp, ?_⟩
    intro a ha b hb
    rw [List.mem_singleton.mp hb]
    intro hac
    exact hany (List.any_eq_true.mpr ⟨a, ha, decide_eq_true hac⟩)

/-- **C2.** Writing the same section chunk twice through the upsert writer
leaves exactly one row for its `(case_id, section_id)` key, and that row
holds the written chunk's values; no duplicate row is created. The table
is assumed well-formed (the unique constraint: pairwise-distinct conflict
keys) and any pre-existing row under that key belongs to the same oral
argument (`oa_id` is not in the `DO UPDATE SET` column list, so it is the
one column an update leaves untouched); the chunk's vector matches its
dimension so the writes succeed. -/
theorem c2_upsert_convergence (c : Chunk) (t : List Chunk)
    (hdim : c.vector.length = c.embedding_dimension)
    (hnd : t.Pairwise (fun a b => chunkKey a ≠ chunkKey b))
    (hoa : ∀ r ∈ t, chunkKey r = chunkKey c → r.oa_id = c.oa_id) :
    insert_document_chunk_embeddings [c] t = .ok (upsertChunkRow t c) ∧
    insert_document_chunk_embeddings [c] (upsertChunkRow t c)
      = .ok (upsertChunkRow (upsertChunkRow t c) c) ∧
    rowCount (upsertChunkRow (upsertChunkRow t c) c) (chunkKey c) = 1 ∧
    ∀ r ∈ upsertChunkRow (upsertChunkRow t c) c,
      chunkKey r = chunkKey c → r = c := by
  have hnd₁ := upsertChunkRow_pairwise t c hnd
  have hoa₁ : ∀ r ∈ upsertChunkRow t c, chunkKey r = chunkKey c →
      r.oa_id = c.oa_id := by
    intro r hr hk
    rcases mem_upsertChunkRow t c r hr with ⟨_, hne⟩ | h | ⟨r₀, hr₀, hk₀, he⟩
    · exact absurd hk hne
    · rw [h]
    · rw [he]
      exact hoa r₀ hr₀ hk₀
  refine ⟨?_, ?_, ?_, ?_⟩
  · simp [insert_document_chunk_embeddings, insertChunksGo, hdim]
  · simp [insert_document_chunk_embeddings, insertChunksGo, hdim]
  · exact rowCount_upsertChunkRow _ c (rowCount_le_one_of_pairwise _ hnd₁ _)
  · intro r hr hk
    rcases mem_upsertChunkRow _ c r hr with ⟨_, hne⟩ | h | ⟨r₀, hr₀, hk₀, he⟩
    · exact absurd hk hne
    · exact h
    · rw [he]
      exact mergeChunkRow_eq_self r₀ c hk₀ (hoa₁ r₀ hr₀ hk₀)

/-- **C2 witness.** The theorem at a concrete chunk against the empty
table. -/
theorem c2_upsert_convergence_witness :
    insert_document_chunk_embeddings [sampleGoodChunk] [] = .ok [sampleGoodChunk] ∧
    insert_document_chunk_embeddings [sampleGoodChunk] [sampleGoodChunk]
      = .ok [sampleGoodChunk] ∧
    rowCount [sampleGoodChunk] (chunkKey sampleGoodChunk) = 1 := by
  have h := c2_upsert_convergence sampleGoodChunk []
    (by decide) (by simp) (by simp)
  have hu : upsertChunkRow [] sampleGoodChunk = [sampleGoodChunk] := by decide
  have hu2 : upsertChunkRow [sampleGoodChunk] sampleGoodChunk
      = [sampleGoodChunk] := by decide
  refine ⟨?_, ?_, ?_⟩
  · rw [← hu]; exact h.1
  · rw [← hu2, ← hu]
    have := h.2.1
    rwa [hu] at this
  · have := h.2.2.1
    rwa [hu, hu2] at this

theorem upsertChunkRow_dim (t : List Chunk) (c : Chunk)
    (ht : ∀ r ∈ t, r.vector.length = r.embedding_dimension)
    (hc : c.vector.length = c.embedding_dimension) :
    ∀ r ∈ upsertChunkRow t c, r.vector.length = r.embedding_dimension := by
  intro r hr
  rcases mem_upsertChunkRow t c r hr with ⟨h, _⟩ | h | ⟨r₀, _, _, he⟩
  · exact ht r h
  · rw [h]; exact hc
  · rw [he]
    exact hc

theorem insertChunksGo_dim (chunks : List Chunk) :
    ∀ t t', insertChunksGo t chunks = .ok t' →
    (∀ r ∈ t, r.vector.length = r.embedding_dimension) →
    ∀ r ∈ t', r.vector.length = r.embedding_dimension := by
  induction chunks with
  | nil =>
    intro t t' hok ht
    simp only [insertChunksGo, Except.ok.injEq] at hok
    rw [← hok]
    exact ht
  | cons c cs ih =>
    intro t t' hok ht
    by_cases hc : c.vector.length = c.embedding_dimension
    · rw [insertChunksGo, if_pos hc] at hok
      exact ih _ _ hok (upsertChunkRow_dim t c ht hc)
    · rw [insertChunksGo, if_neg hc] at hok
      cases hok

theorem insertChunksGo_bad (chunks : List Chunk) :
    ∀ t, (∃ c ∈ chunks, c.vector.length ≠ c.embedding_dimension) →
    ∃ e, insertChunksGo t chunks = .error e := by
  induction chunks with
  | nil =>
    intro t h
    simp at h
  | cons c cs ih =>
    intro t h
    by_cases hc : c.vector.length = c.embedding_dimension
    · obtain ⟨c', hc', hbad⟩ := h
      rcases List.mem_cons.mp hc' with he | hm
      · exact absurd hc (he ▸ hbad)
      · obtain ⟨e, he⟩ := ih (upsertChunkRow t c) ⟨c', hm, hbad⟩
        exact ⟨e, by rw [insertChunksGo, if_pos hc]; exact he⟩
    · exact ⟨"Embedding has invalid dimension", by rw [insertChunksGo, if_neg hc]⟩

/-- **C5.** The dimension invariant of the chunk writer:
1. every chunk handed to the writer by the pipeline carries
   `embedding_dimension` equal to the configured model dimension;
2. a successful write preserves the table invariant that every row's
   vector length equals its `embedding_dimension` (so every inserted
   vector has the configured length);
3. a chunk list containing any vector of mismatched length makes the
   writer raise, and the transaction rolls back: the committed table is
   unchanged (the commit only happens after the loop);
4. the per-document batch loop produces one result per document — a
   failing document never terminates the run;
5. a document with a mismatched vector yields a per-item failure and
   leaves the table untouched for the rest of the run. -/
theorem c5_dimension_invariant :
    (∀ (embFn : String → List Int) (mName : String) (mDim : Nat)
       (meta : MetaIds) (key : String) (pre : List ChunkPre),
       ∀ ch ∈ attachEmbeddings embFn mName mDim meta key pre,
         ch.embedding_dimension = mDim) ∧
    (∀ (chunks t t' : List Chunk),
       insert_document_chunk_embeddings chunks t = .ok t' →
       (∀ r ∈ t, r.vector.length = r.embedding_dimension) →
       ∀ r ∈ t', r.vector.length = r.embedding_dimension) ∧
    (∀ (chunks t : List Chunk),
       (∃ c ∈ chunks, c.vector.length ≠ c.embedding_dimension) →
       (∃ e, insert_document_chunk_embeddings chunks t = .error e) ∧
       committedTable chunks t = t) ∧
    (∀ (docs : List (List Chunk)) (t : List Chunk),
       (runDocs docs t).1.length = docs.length) ∧
    (∀ (d : List Chunk) (ds : List (List Chunk)) (t : List Chunk),
       (∃ c ∈ d, c.vector.length ≠ c.embedding_dimension) →
       runDocs (d :: ds) t = (false :: (runDocs ds t).1, (runDocs ds t).2)) := by
  have hbad : ∀ (chunks t : List Chunk),
      (∃ c ∈ chunks, c.vector.length ≠ c.embedding_dimension) →
      (∃ e, insert_document_chunk_embeddings chunks t = .error e) ∧
      committedTable chunks t = t := by
    intro chunks t h
    obtain ⟨e, he⟩ := insertChunksGo_bad chunks t h
    refine ⟨⟨e, he⟩, ?_⟩
    simp [committedTable, insert_document_chunk_embeddings, he]
  refine ⟨?_, ?_, hbad, ?_, ?_⟩
  · intro embFn mName mDim meta key pre ch hch
    obtain ⟨p, _, hp⟩ := List.mem_map.mp hch
    rw [← hp]
  · intro chunks t t' hok ht
    exact insertChunksGo_dim chunks t t' hok ht
  · intro docs
    induction docs with
    | nil => intro t; rfl
    | cons d ds ih =>
      intro t
      simp [runDocs, ih]
  · intro d ds t h
    obtain ⟨⟨e, he⟩, _⟩ := hbad d t h
    simp [runDocs, processDoc, insert_document_chunk_embeddings] at he ⊢
    rw [he]
    simp

/-- **C5 witness.** The theorem's parts at concrete inputs: a pipeline
chunk carries the configured dimension 4; inserting a mismatched chunk
errors and commits nothing; the batch loop still produces one result per
document. -/
theorem c5_dimension_invariant_witness :
    (∀ ch ∈ attachEmbeddings (fun _ => [1, 2, 3, 4]) "baai/bge-m3" 4
        sampleMeta "raw/oa/2024_x.json"
        [{ section_id := 0, chunk_text := "MR X: a b c d e", word_count := 6,
           token_count := 9, start_utterance_index := 0,
           end_utterance_index := 0, utterance_count := 1 }],
       ch.embedding_dimension = 4) ∧
    (∃ e, insert_document_chunk_embeddings [sampleBadChunk] [] = .error e) ∧
    committedTable [sampleBadChunk] [] = [] ∧
    (runDocs [[sampleBadChunk], [sampleGoodChunk]] []).1.length = 2 := by
  obtain ⟨h1, _, h3, h4, _⟩ := c5_dimension_invariant
  refine ⟨h1 _ _ _ _ _ _, ?_, ?_, h4 _ _⟩
  · exact (h3 [sampleBadChunk] [] ⟨sampleBadChunk, by simp, by decide⟩).1
  · exact (h3 [sampleBadChunk] [] ⟨sampleBadChunk, by simp, by decide⟩).2

/-! ## Supporting lemmas on words and stripping -/

theorem wordsAux_dropWhile (l : List Char) :
    wordsAux [] (l.dropWhile Char.isWhitespace) = wordsAux [] l := by
  induction l with
  | nil => rfl
  | cons c cs ih =>
    by_cases hc : Char.isWhitespace c
    · rw [List.dropWhile_cons_of_pos hc]
      rw [ih]
      conv_rhs => rw [wordsAux]
      simp [hc]
    · rw [List.dropWhile_cons_of_neg hc]

theorem wordsAux_all_ws (t : List Char) (ht : ∀ c ∈ t, Char.isWhitespace c)
    (cur : List Char) :
    wordsAux cur t = if cur.isEmpty then [] else [cur.reverse] := by
  induction t generalizing cur with
  | nil => rfl
  | cons c t' ih =>
    have hc : Char.isWhitespace c = true := ht c (List.mem_cons_self c t')
    have ht' : ∀ x ∈ t', Char.isWhitespace x := fun x hx =>
      ht x (List.mem_cons_of_mem c hx)
    rw [wordsAux]
    by_cases hcur : cur.isEmpty
    · simp [hc, hcur, ih ht']
    · simp [hc, hcur, ih ht']

theorem wordsAux_append_ws (l t : List Char)
    (ht : ∀ c ∈ t, Char.isWhitespace c) (cur : List Char) :
    wordsAux cur (l ++ t) = wordsAux cur l := by
  induction l generalizing cur with
  | nil =>
    rw [List.nil_append, wordsAux_all_ws t ht cur]
    rfl
  | cons x l' ih =>
    rw [List.cons_append]
    rw [wordsAux, wordsAux]
    by_cases hx : Char.isWhitespace x
    · by_cases hcur : cur.isEmpty <;> simp [hx, hcur, ih]
    · simp [hx, ih]

theorem wordCountPy_strip (s : String) : wordCountPy (pyStrip s) = wordCountPy s := by
  unfold wordCountPy pyWords pyStrip
  have hdata :
      (String.mk (((s.data.dropWhile Char.isWhitespace).reverse.dropWhile
        Char.isWhitespace).reverse)).data
      = ((s.data.dropWhile Char.isWhitespace).reverse.dropWhile
          Char.isWhitespace).reverse := rfl
  rw [hdata]
  set l₁ := s.data.dropWhile Char.isWhitespace with hl₁
  have hsplit : l₁ = (l₁.reverse.dropWhile Char.isWhitespace).reverse
      ++ (l₁.reverse.takeWhile Char.isWhitespace).reverse := by
    have h := (List.takeWhile_append_dropWhile (p := Char.isWhitespace)
      (l := l₁.reverse))
    have h2 := congrArg List.reverse h
    rw [List.reverse_append, List.reverse_reverse] at h2
    exact h2.symm
  have hws : ∀ c ∈ (l₁.reverse.takeWhile Char.isWhitespace).reverse,
      Char.isWhitespace c := by
    intro c hc
    rw [List.mem_reverse] at hc
    exact List.mem_takeWhile_imp hc
  calc (wordsAux [] ((l₁.reverse.dropWhile Char.isWhitespace).reverse)).length
      = (wordsAux [] ((l₁.reverse.dropWhile Char.isWhitespace).reverse
          ++ (l₁.reverse.takeWhile Char.isWhitespace).reverse)).length := by
        rw [wordsAux_append_ws _ _ hws]
    _ = (wordsAux [] l₁).length := by rw [← hsplit]
    _ = (wordsAux [] s.data).length := by rw [hl₁, wordsAux_dropWhile]

theorem wordCountPy_empty : wordCountPy "" = 0 := rfl

theorem keepText_isSome_iff (b : TextBlock) :
    (keepText b.text).isSome = true ↔ 4 ≤ blockWordCount b := by
  cases hb : b.text with
  | none => simp [keepText, blockWordCount, hb]
  | some t =>
    simp only [keepText, blockWordCount, hb]
    by_cases hcond : t ≠ "" ∧ 3 < wordCountPy (pyStrip t)
    · rw [if_pos hcond]
      simp only [Option.isSome_some, true_iff]
      have := hcond.2
      rw [wordCountPy_strip] at this
      omega
    · rw [if_neg hcond]
      simp only [Option.isSome_none, Bool.false_eq_true, false_iff, not_le]
      rw [Decidable.not_and_iff_or_not] at hcond
      rcases hcond with h | h
      · have ht : t = "" := by simpa using h
        rw [ht, wordCountPy_empty]
        omega
      · rw [not_lt, wordCountPy_strip] at h
        omega

theorem keepText_eq_strip (t : String) (h : (keepText (some t)).isSome = true) :
    keepText (some t) = some (pyStrip t) := by
  simp only [keepText] at h ⊢
  by_cases hcond : t ≠ "" ∧ 3 < wordCountPy (pyStrip t)
  · rw [if_pos hcond]
  · rw [if_neg hcond] at h
    cases h

/-! ## Supporting lemmas on the normalizer folds -/

theorem sumLen_nil : sumLen [] = 0 := rfl

theorem sumLen_cons (t : String) (l : List String) :
    sumLen (t :: l) = t.length + 1 + sumLen l := by
  simp [sumLen]

theorem offsetsFrom_append (l₁ l₂ : List String) :
    ∀ c, offsetsFrom c (l₁ ++ l₂)
      = offsetsFrom c l₁ ++ offsetsFrom (c + sumLen l₁) l₂ := by
  induction l₁ with
  | nil => intro c; simp [offsetsFrom, sumLen_nil]
  | cons t l₁ ih =>
    intro c
    rw [List.cons_append, offsetsFrom, offsetsFrom, ih, sumLen_cons]
    simp only [List.cons_append, List.cons.injEq, true_and]
    congr 2
    omega

theorem sumLen_append (l₁ l₂ : List String) :
    sumLen (l₁ ++ l₂) = sumLen l₁ + sumLen l₂ := by
  simp [sumLen]

theorem blocksFold_proj (tk : Tokenizer) (meta : MetaIds)
    (key speaker sid : String) (bs : List TextBlock) :
    ∀ (st : NState) (utts : List Utterance) (texts : List String),
    (bs.foldl (blockStep tk meta key speaker sid) (st, utts, texts)).1.idx
      = st.idx + (keptOfBlocks bs).length ∧
    (bs.foldl (blockStep tk meta key speaker sid) (st, utts, texts)).1.off
      = st.off + sumLen (keptOfBlocks bs) ∧
    (bs.foldl (blockStep tk meta key speaker sid)
        (st, utts, texts)).2.1.map (·.utterance_index)
      = utts.map (·.utterance_index)
          ++ List.range' st.idx (keptOfBlocks bs).length ∧
    (bs.foldl (blockStep tk meta key speaker sid)
        (st, utts, texts)).2.1.map (·.char_start_offset)
      = utts.map (·.char_start_offset) ++ offsetsFrom st.off (keptOfBlocks bs) ∧
    (bs.foldl (blockStep tk meta key speaker sid)
        (st, utts, texts)).2.1.map (·.text)
      = utts.map (·.text) ++ keptOfBlocks bs := by
  induction bs with
  | nil =>
    intro st utts texts
    simp [keptOfBlocks, sumLen_nil, offsetsFrom]
  | cons b bs ih =>
    intro st utts texts
    rw [List.foldl_cons]
    cases hk : keepText b.text with
    | none =>
      have hstep : blockStep tk meta key speaker sid (st, utts, texts) b
          = (st, utts, texts) := by
        simp [blockStep, hk]
      have hkept : keptOfBlocks (b :: bs) = keptOfBlocks bs := by
        simp [keptOfBlocks, List.filterMap_cons, hk]
      rw [hstep, hkept]
      exact ih st utts texts
    | some t =>
      have hkept : keptOfBlocks (b :: bs) = t :: keptOfBlocks bs := by
        simp [keptOfBlocks, List.filterMap_cons, hk]
      have hstep : blockStep tk meta key speaker sid (st, utts, texts) b
          = (⟨st.idx + 1, st.off + t.length + 1⟩,
             utts ++ [{ case_id := meta.case_id, oa_id := meta.oa_id,
                        utterance_index := st.idx, speaker_id := sid,
                        speaker_name := speaker, text := t,
                        word_count := wordCountPy t,
                        token_count := (tk.encode t).length,
                        char_start_offset := st.off,
                        char_end_offset := st.off + t.length,
                        start_time_ms := b.start_time_ms,
                        end_time_ms := b.end_time_ms, source_key := key }],
             texts ++ [speaker ++ ": " ++ t]) := by
        simp [blockStep, hk]
      rw [hstep, hkept]
      obtain ⟨ih1, ih2, ih3, ih4, ih5⟩ :=
        ih ⟨st.idx + 1, st.off + t.length + 1⟩
          (utts ++ [{ case_id := meta.case_id, oa_id := meta.oa_id,
                      utterance_index := st.idx, speaker_id := sid,
                      speaker_name := speaker, text := t,
                      word_count := wordCountPy t,
                      token_count := (tk.encode t).length,
                      char_start_offset := st.off,
                      char_end_offset := st.off + t.length,
                      start_time_ms := b.start_time_ms,
                      end_time_ms := b.end_time_ms, source_key := key }])
          (texts ++ [speaker ++ ": " ++ t])
      refine ⟨?_, ?_, ?_, ?_, ?_⟩
      · rw [ih1]
        dsimp only
        simp only [List.length_cons]
        omega
      · rw [ih2, sumLen_cons]
        dsimp only
        omega
      · rw [ih3, List.map_append]
        simp [List.range'_succ]
      · rw [ih4, List.map_append]
        simp [offsetsFrom]
      · rw [ih5, List.map_append]
        simp

theorem turnsFold_proj (tk : Tokenizer) (meta : MetaIds) (key : String)
    (tns : List Turn) :
    ∀ (st : NState) (utts : List Utterance) (texts : List String),
    (tns.foldl (turnStep tk meta key) (st, utts, texts)).1.idx
      = st.idx + (tns.bind keptOfTurn).length ∧
    (tns.foldl (turnStep tk meta key) (st, utts, texts)).1.off
      = st.off + sumLen (tns.bind keptOfTurn) ∧
    (tns.foldl (turnStep tk meta key)
        (st, utts, texts)).2.1.map (·.utterance_index)
      = utts.map (·.utterance_index)
          ++ List.range' st.idx (tns.bind keptOfTurn).length ∧
    (tns.foldl (turnStep tk meta key)
        (st, utts, texts)).2.1.map (·.char_start_offset)
      = utts.map (·.char_start_offset)
          ++ offsetsFrom st.off (tns.bind keptOfTurn) ∧
    (tns.foldl (turnStep tk meta key) (st, utts, texts)).2.1.map (·.text)
      = utts.map (·.text) ++ tns.bind keptOfTurn := by
  induction tns with
  | nil =>
    intro st utts texts
    simp [offsetsFrom, sumLen_nil]
  | cons tn tns ih =>
    intro st utts texts
    rw [List.foldl_cons]
    have hbind : (tn :: tns).bind keptOfTurn
        = keptOfTurn tn ++ tns.bind keptOfTurn := by
      simp [List.cons_bind]
    rw [hbind]
    have hturn := blocksFold_proj tk meta key
      ((tn.speaker.bind (·.name)).getD "Unknown")
      (match tn.speaker.bind (·.id) with
        | some n => toString n
        | none => "") tn.text_blocks st utts texts
    have hstep : turnStep tk meta key (st, utts, texts) tn
        = tn.text_blocks.foldl
            (blockStep tk meta key
              ((tn.speaker.bind (·.name)).getD "Unknown")
              (match tn.speaker.bind (·.id) with
                | some n => toString n
                | none => "")) (st, utts, texts) := by
      rfl
    rw [hstep]
    obtain ⟨hb1, hb2, hb3, hb4, hb5⟩ := hturn
    set mid := tn.text_blocks.foldl
      (blockStep tk meta key
        ((tn.speaker.bind (·.name)).getD "Unknown")
        (match tn.speaker.bind (·.id) with
          | some n => toString n
          | none => "")) (st, utts, texts) with hmid
    have hmid' : mid = (mid.1, mid.2.1, mid.2.2) := rfl
    rw [hmid']
    obtain ⟨ih1, ih2, ih3, ih4, ih5⟩ := ih mid.1 mid.2.1 mid.2.2
    have hkT : keptOfTurn tn = keptOfBlocks tn.text_blocks := rfl
    refine ⟨?_, ?_, ?_, ?_, ?_⟩
    · rw [ih1, hb1, hkT]
      simp only [List.length_append]
      omega
    · rw [ih2, hb2, hkT, sumLen_append]
      omega
    · rw [ih3, hb3, hb1, hkT, List.append_assoc, List.range'_append_1]
      simp [List.length_append, Nat.add_comm]
    · rw [ih4, hb4, hb2, hkT, List.append_assoc, offsetsFrom_append]
    · rw [ih5, hb5, hkT, List.append_assoc]

theorem sectionsLoop_proj (tk : Tokenizer) (meta : MetaIds) (key : String)
    (secs : List TSection) :
    ∀ (st : NState) (sid : Nat),
    (sectionsLoop tk meta key st sid secs).1.idx
      = st.idx + (keptTexts secs).length ∧
    (sectionsLoop tk meta key st sid secs).1.off
      = st.off + sumLen (keptTexts secs) ∧
    (sectionsLoop tk meta key st sid secs).2.1.map (·.utterance_index)
      = List.range' st.idx (keptTexts secs).length ∧
    (sectionsLoop tk meta key st sid secs).2.1.map (·.char_start_offset)
      = offsetsFrom st.off (keptTexts secs) ∧
    (sectionsLoop tk meta key st sid secs).2.1.map (·.text)
      = keptTexts secs := by
  induction secs with
  | nil =>
    intro st sid
    simp [sectionsLoop, keptTexts, offsetsFrom, sumLen_nil]
  | cons sec rest ih =>
    intro st sid
    have hkt : keptTexts (sec :: rest)
        = sec.turns.bind keptOfTurn ++ keptTexts rest := by
      simp [keptTexts, List.cons_bind, keptOfSection]
    obtain ⟨hs1, hs2, hs3, hs4, hs5⟩ := turnsFold_proj tk meta key sec.turns st [] []
    simp only [List.map_nil, List.nil_append] at hs3 hs4 hs5
    obtain ⟨ih1, ih2, ih3, ih4, ih5⟩ :=
      ih (sec.turns.foldl (turnStep tk meta key) (st, [], [])).1 (sid + 1)
    simp only [sectionsLoop]
    rw [hkt]
    refine ⟨?_, ?_, ?_, ?_, ?_⟩
    · rw [ih1, hs1]
      simp only [List.length_append]
      omega
    · rw [ih2, hs2, sumLen_append]
      omega
    · rw [List.map_append, ih3, hs3, hs1, List.range'_append_1]
      simp [List.length_append, Nat.add_comm]
    · rw [List.map_append, ih4, hs4, hs2, offsetsFrom_append]
    · rw [List.map_append, ih5, hs5]

theorem normalizeOk_shape (tk : Tokenizer) (meta : MetaIds) (key : String)
    (d : RawDoc) (out : List Utterance × List ChunkPre)
    (h : process_transcript_with_chunking tk meta key d = .ok out) :
    ∃ secs, d.transcript = some (some secs) ∧
      out = ((sectionsLoop tk meta key ⟨0, 0⟩ 0 secs).2.1,
             (sectionsLoop tk meta key ⟨0, 0⟩ 0 secs).2.2) := by
  cases hd : d.transcript with
  | none =>
    simp only [process_transcript_with_chunking, hd] at h
    cases h
  | some inner =>
    cases inner with
    | none =>
      simp only [process_transcript_with_chunking, hd] at h
      cases h
    | some secs =>
      simp only [process_transcript_with_chunking, hd] at h
      by_cases he : secs.isEmpty
      · rw [if_pos he] at h
        cases h
      · rw [if_neg he] at h
        by_cases hu : (sectionsLoop tk meta key ⟨0, 0⟩ 0 secs).2.1.isEmpty
        · simp only [hu, if_true] at h
          cases h
        · simp only [hu, Bool.false_eq_true, if_false, Except.ok.injEq] at h
          exact ⟨secs, rfl, h.symm⟩

theorem normalizeOk_proj (tk : Tokenizer) (meta : MetaIds) (key : String)
    (d : RawDoc) (out : List Utterance × List ChunkPre)
    (h : process_transcript_with_chunking tk meta key d = .ok out) :
    out.1.map (·.utterance_index) = List.range' 0 (docKeptTexts d).length ∧
    out.1.map (·.char_start_offset) = offsetsFrom 0 (docKeptTexts d) ∧
    out.1.map (·.text) = docKeptTexts d := by
  obtain ⟨secs, hd, hout⟩ := normalizeOk_shape tk meta key d out h
  obtain ⟨_, _, h3, h4, h5⟩ := sectionsLoop_proj tk meta key secs ⟨0, 0⟩ 0
  have hdk : docKeptTexts d = keptTexts secs := by
    simp [docKeptTexts, hd]
  rw [hout, hdk]
  exact ⟨h3, h4, h5⟩

/-- **C3.** Normalization is a deterministic function of the document's
sections/turns/text blocks: any two runs of the normalizer on the same raw
document — even with different tokenizers, metadata or source keys —
assign identical `utterance_index` sequences and identical
`char_start_offset` sequences; moreover both equal the canonical
characterization, `0, 1, 2, …` over the document's kept texts and the
running offsets determined by those texts' lengths alone. -/
theorem c3_normalizer_deterministic (tk tk' : Tokenizer) (meta meta' : MetaIds)
    (key key' : String) (d : RawDoc) (out out' : List Utterance × List ChunkPre)
    (h : process_transcript_with_chunking tk meta key d = .ok out)
    (h' : process_transcript_with_chunking tk' meta' key' d = .ok out') :
    out.1.map (·.utterance_index) = out'.1.map (·.utterance_index) ∧
    out.1.map (·.char_start_offset) = out'.1.map (·.char_start_offset) ∧
    out.1.map (·.utterance_index) = List.range' 0 (docKeptTexts d).length ∧
    out.1.map (·.char_start_offset) = offsetsFrom 0 (docKeptTexts d) := by
  obtain ⟨a1, a2, _⟩ := normalizeOk_proj tk meta key d out h
  obtain ⟨b1, b2, _⟩ := normalizeOk_proj tk' meta' key' d out' h'
  exact ⟨a1.trans b1.symm, a2.trans b2.symm, a1, a2⟩

/-- **C3 witness.** Two runs on the sample document with two different
tokenizers: identical index and offset sequences, equal to the canonical
characterization. -/
theorem c3_normalizer_deterministic_witness :
    ((process_transcript_with_chunking charTok sampleMeta "rk"
        sampleDoc).toOption.getD ([], [])).1.map (·.utterance_index)
      = ((process_transcript_with_chunking constTok sampleMeta "rk2"
          sampleDoc).toOption.getD ([], [])).1.map (·.utterance_index) ∧
    ((process_transcript_with_chunking charTok sampleMeta "rk"
        sampleDoc).toOption.getD ([], [])).1.map (·.char_start_offset)
      = ((process_transcript_with_chunking constTok sampleMeta "rk2"
          sampleDoc).toOption.getD ([], [])).1.map (·.char_start_offset) ∧
    ((process_transcript_with_chunking charTok sampleMeta "rk"
        sampleDoc).toOption.getD ([], [])).1.map (·.utterance_index)
      = List.range' 0 (docKeptTexts sampleDoc).length := by
  have hA : process_transcript_with_chunking charTok sampleMeta "rk" sampleDoc
      = .ok ((process_transcript_with_chunking charTok sampleMeta "rk"
          sampleDoc).toOption.getD ([], [])) := by rfl
  have hB : process_transcript_with_chunking constTok sampleMeta "rk2" sampleDoc
      = .ok ((process_transcript_with_chunking constTok sampleMeta "rk2"
          sampleDoc).toOption.getD ([], [])) := by rfl
  obtain ⟨e1, e2, e3, _⟩ := c3_normalizer_deterministic charTok constTok
    sampleMeta sampleMeta "rk" "rk2" sampleDoc _ _ hA hB
  exact ⟨e1, e2, e3⟩

/-- **C9.** The word filter: the normalizer's utterance texts are exactly
the stripped texts of the document's kept blocks in document order
(`docKeptTexts`, the `filterMap keepText` over the block walk), and
`keepText` keeps a block if and only if its whitespace-separated word
count is at least 4 (blocks with fewer than 4 words contribute no
utterance and no index). -/
theorem c9_word_filter (tk : Tokenizer) (meta : MetaIds) (key : String)
    (d : RawDoc) (out : List Utterance × List ChunkPre)
    (h : process_transcript_with_chunking tk meta key d = .ok out) :
    out.1.map (·.text) = docKeptTexts d ∧
    ∀ b : TextBlock, (keepText b.text).isSome = true ↔ 4 ≤ blockWordCount b := by
  exact ⟨(normalizeOk_proj tk meta key d out h).2.2, keepText_isSome_iff⟩

/-- **C9 witness.** On the sample document, the single emitted utterance
text is the five-word block; the two-word block `"uh huh"` is kept by the
filter in neither direction of the characterization. -/
theorem c9_word_filter_witness :
    ((process_transcript_with_chunking charTok sampleMeta "rk"
        sampleDoc).toOption.getD ([], [])).1.map (·.text)
      = docKeptTexts sampleDoc ∧
    ¬ ((keepText (some "uh huh")).isSome = true) ∧
    (keepText (some "a b c d e")).isSome = true := by
  have hA : process_transcript_with_chunking charTok sampleMeta "rk" sampleDoc
      = .ok ((process_transcript_with_chunking charTok sampleMeta "rk"
          sampleDoc).toOption.getD ([], [])) := by rfl
  obtain ⟨e1, e2⟩ := c9_word_filter charTok sampleMeta "rk" sampleDoc _ hA
  refine ⟨e1, ?_, ?_⟩
  · intro hcontra
    have := (e2 { text := some "uh huh", start_time_ms := none,
                  end_time_ms := none }).mp hcontra
    simp [blockWordCount] at this
    exact absurd this (by decide)
  · exact (e2 { text := some "a b c d e", start_time_ms := none,
                end_time_ms := none }).mpr (by decide)

theorem sectionsLoop_chunks_bound (tk : Tokenizer) (meta : MetaIds)
    (key : String) (hrt : ∀ ts, (tk.encode (tk.decode ts)).length ≤ ts.length)
    (secs : List TSection) :
    ∀ (st : NState) (sid : Nat),
    ∀ ch ∈ (sectionsLoop tk meta key st sid secs).2.2,
      (tk.encode ch.chunk_text).length ≤ 8000 := by
  induction secs with
  | nil =>
    intro st sid ch hch
    simp [sectionsLoop] at hch
  | cons sec rest ih =>
    intro st sid ch hch
    simp only [sectionsLoop] at hch
    rcases List.mem_append.mp hch with hmem | hmem
    · by_cases he : (sec.turns.foldl (turnStep tk meta key)
          (st, [], [])).2.2.isEmpty
      · rw [if_pos he] at hmem
        simp at hmem
      · rw [if_neg he] at hmem
        by_cases htc : 8000 < (tk.encode (String.intercalate "\n"
            (sec.turns.foldl (turnStep tk meta key) (st, [], [])).2.2)).length
        · rw [if_pos htc] at hmem
          simp only [Option.toList_some, List.mem_singleton] at hmem
          rw [hmem]
          show (tk.encode (truncate_to_tokens tk (String.intercalate "\n"
            (sec.turns.foldl (turnStep tk meta key) (st, [], [])).2.2)
            8000)).length ≤ 8000
          rw [truncate_to_tokens, if_neg (by omega)]
          calc (tk.encode (tk.decode ((tk.encode (String.intercalate "\n"
                (sec.turns.foldl (turnStep tk meta key)
                  (st, [], [])).2.2)).take 8000))).length
              ≤ ((tk.encode (String.intercalate "\n"
                  (sec.turns.foldl (turnStep tk meta key)
                    (st, [], [])).2.2)).take 8000).length := hrt _
            _ ≤ 8000 := by
                rw [List.length_take]
                omega
        · rw [if_neg htc] at hmem
          simp only [Option.toList_some, List.mem_singleton] at hmem
          rw [hmem]
          dsimp only
          omega
    · exact ih _ (sid + 1) ch hmem

/-- **C4.** The truncation law: for any text whose token count exceeds
8000, `truncate_to_tokens` returns the decoding of the first 8000 tokens
of the text's encoding (a prefix-decoding, not character truncation); and
under the tokenizer interface assumption that re-encoding a decoded token
sequence yields at most as many tokens, every chunk text the normalizer
stores re-tokenizes to at most 8000 tokens. -/
theorem c4_truncation_law (tk : Tokenizer) (text : String) (meta : MetaIds)
    (key : String) (d : RawDoc) (out : List Utterance × List ChunkPre) :
    (8000 < (tk.encode text).length →
      truncate_to_tokens tk text 8000
        = tk.decode ((tk.encode text).take 8000)) ∧
    ((∀ ts, (tk.encode (tk.decode ts)).length ≤ ts.length) →
      process_transcript_with_chunking tk meta key d = .ok out →
      ∀ ch ∈ out.2, (tk.encode ch.chunk_text).length ≤ 8000) := by
  constructor
  · intro hlen
    rw [truncate_to_tokens, if_neg (by omega)]
  · intro hrt hok ch hch
    obtain ⟨secs, _, hout⟩ := normalizeOk_shape tk meta key d out hok
    rw [hout] at hch
    exact sectionsLoop_chunks_bound tk meta key hrt secs ⟨0, 0⟩ 0 ch hch

/-- **C4 witness.** The law at a character tokenizer and a text of 8001
tokens, and the re-tokenization bound over the sample document's stored
chunks. -/
theorem c4_truncation_law_witness :
    truncate_to_tokens charTok bigText 8000
      = charTok.decode ((charTok.encode bigText).take 8000) ∧
    (((process_transcript_with_chunking charTok sampleMeta "rk"
        sampleDoc).toOption.getD ([], [])).2.all
      (fun ch => decide ((charTok.encode ch.chunk_text).length ≤ 8000))) = true := by
  have hlen : (charTok.encode bigText).length = 8001 := by
    show ((String.mk (List.replicate 8001 'a')).data.map Char.toNat).length = 8001
    rw [List.length_map]
    exact List.length_replicate 8001 'a'
  have hrt : ∀ ts, (charTok.encode (charTok.decode ts)).length ≤ ts.length := by
    intro ts
    show ((String.mk (ts.map Char.ofNat)).data.map Char.toNat).length ≤ ts.length
    rw [List.length_map, List.length_map]
  have hA : process_transcript_with_chunking charTok sampleMeta "rk" sampleDoc
      = .ok ((process_transcript_with_chunking charTok sampleMeta "rk"
          sampleDoc).toOption.getD ([], [])) := by rfl
  constructor
  · exact (c4_truncation_law charTok bigText sampleMeta "rk" sampleDoc
      (([], []))).1 (by omega)
  · rw [List.all_eq_true]
    intro ch hch
    exact decide_eq_true
      ((c4_truncation_law charTok bigText sampleMeta "rk" sampleDoc _).2
        hrt hA ch hch)

/-- **C1.** Evaluation of the incremental dispatcher at the failing input.
With the IngestedSetIndex containing the ids `{A, B}` (extracted from the
stored key names, hence strings) and the remote listing containing
`{A, B, C}` where `C`'s id is the JSON number `42`:
* the first run fetches only `C` and counts `existing = 2, new = 1`,
  exactly as the claim demands, and stores `C` under
  `raw/oa/42_t1.json`;
* the next run's index therefore contains the extracted id `"42"`;
* yet the second run fetches `C` again (`existing = 2`, not 3): the
  membership test compares the raw JSON id `42` (an `int` in Python)
  against the set of strings parsed out of the key names, and an `int`
  never equals a `str` under Python `==` — so a numeric-id document is
  re-fetched in every later run, violating the claimed invariant
  ("never re-fetched in the same or a later run"). -/
theorem c1_incremental_refetch_at_failing_input :
    (dispatchRun sampleFetch 2024 sampleCase "t1" runKeys0).1 = [(2, oaEntryC)] ∧
    (dispatchRun sampleFetch 2024 sampleCase "t1" runKeys0).2.1
      = ⟨3, 2, 1⟩ ∧
    (dispatchRun sampleFetch 2024 sampleCase "t1" runKeys0).2.2
      = runKeys0 ++ ["raw/oa/42_t1.json"] ∧
    get_existing_oa_ids (runKeys0 ++ ["raw/oa/42_t1.json"])
      = ["A", "B", "42"] ∧
    (dispatchRun sampleFetch 2024 sampleCase "t2"
      (runKeys0 ++ ["raw/oa/42_t1.json"])).1 = [(2, oaEntryC)] ∧
    (dispatchRun sampleFetch 2024 sampleCase "t2"
      (runKeys0 ++ ["raw/oa/42_t1.json"])).2.1 = ⟨3, 2, 1⟩ := by
  refine ⟨?_, ?_, ?_, ?_, ?_, ?_⟩ <;> rfl

end Scotustician
